import Mathlib

/-!
Shallow embedding of the step-pipeline execution engine of
`src/docker-qgis/process_projectfile.py` (function `process_projectfile`,
lines 208-284), together with the parts of its collaborators that the
spec describes but whose code lives in `qfieldcloud.qgis.utils`
(the `Step` class, `logger_context`, and the domain `BaseException`
family), which is not part of the sources; those parts are modelled
from the spec and marked as such.

Python values that flow between steps are modelled by `PyVal`;
dictionaries by insertion-ordered association lists with
first-occurrence lookup and in-place overwrite, matching `dict`
semantics.  A step's callable is a Lean function from the resolved
positional arguments to a `MethodResult`, which either returns a raw
value or raises: `raiseDomain` models raising an exception of the
imported `BaseException` family (the only family caught by the
executor's `except BaseException` clause, since the import shadows the
builtin), while `raiseOther` models any other exception, which the
executor does not catch.
-/

namespace QFC

/-- Python runtime values threaded through the pipeline registry. -/
inductive PyVal where
  | none
  | bool (b : Bool)
  | int (n : Int)
  | str (s : String)
  | tuple (vs : List PyVal)

/-- A Python `dict` keyed by strings: insertion-ordered association
list, unique keys maintained by `dictSet`. -/
abbrev Dict := List (String × PyVal)

/-- `d[k]` lookup: first (unique) occurrence wins. -/
def dictGet (k : String) : Dict → Option PyVal
  | [] => Option.none
  | (k', v) :: rest => if k' = k then Option.some v else dictGet k rest

/-- `d[k] = v`: overwrite the existing occurrence in place, else append. -/
def dictSet (k : String) (v : PyVal) : Dict → Dict
  | [] => [(k, v)]
  | (k', v') :: rest =>
      if k' = k then (k', v) :: rest else (k', v') :: dictSet k v rest

/-- Outcome of invoking one step's callable (`step.method(*args)`).
`raiseDomain` carries `str(err)` (the rendered message of a
`qfieldcloud.qgis.utils.BaseException`; modelled from the spec: the
domain family carries a message template plus named fields, rendered to
a string) and the traceback frames produced inside the callable.
`raiseOther` is any exception outside the domain family. -/
inductive MethodResult where
  | ok (r : PyVal)
  | raiseDomain (msg : String) (trace : List String)
  | raiseOther (desc : String)

/-- The step descriptor, mirroring `qfieldcloud.qgis.utils.Step` as the
source file constructs and consumes it: a name, declared input names,
the callable, the names of its return values, the subset recorded on
the step (`output_names`) and the subset promoted into the shared
registry (`public_returns`).  Defaults mirror the source: steps omit
`return_names`, `output_names` and `public_returns` freely. -/
structure PStep where
  name : String
  arg_names : List String
  method : List PyVal → MethodResult
  return_names : List String := []
  output_names : List String := []
  public_returns : List String := []

/-- Modelled from the spec: the per-step lifecycle marker kept on the
`Step` object and driven by `logger_context` (in
`qfieldcloud.qgis.utils`, not part of the sources): entering a step
sets STARTED, a normal exit sets SUCCEEDED, an exceptional exit leaves
it at STARTED; unreached steps keep the initial NOT_STARTED. -/
inductive Stage where
  | notStarted
  | started
  | succeeded
deriving DecidableEq

/-- Forward order of the stage machine NOT_STARTED -> STARTED -> SUCCEEDED. -/
def Stage.rank : Stage → Nat
  | .notStarted => 0
  | .started => 1
  | .succeeded => 2

def stageLe (a b : Stage) : Prop := a.rank ≤ b.rank

instance : DecidableRel stageLe := fun a b =>
  inferInstanceAs (Decidable (a.rank ≤ b.rank))

/-- One entry of the feedback's `"steps"` list: the dict
`{"name": step.name, "stage": step.stage, "outputs": step.outputs}`
built in the `finally` block (lines 270-277). -/
structure StepRecord where
  name : String
  stage : Stage
  outputs : Dict

/-- How the `try` body of lines 246-263 exits: the loop over all steps
completed; a `BaseException` (domain error) was raised and caught by
line 265; or an exception outside the domain family was raised, which
the executor does not catch. -/
inductive LoopExit where
  | completed
  | caughtDomain (msg : String) (trace : List String)
  | uncaught (desc : String)
deriving DecidableEq

/-- The feedback document assembled in lines 265-277: optional
top-level `"error"` / `"error_stack"` keys plus the `"steps"` list. -/
structure Feedback where
  error : Option String := Option.none
  error_stack : Option (List String) := Option.none
  steps : List StepRecord := []

/-- Result of one whole run of `process_projectfile`'s executor: the
feedback document is produced on every exit path (the `finally`
block), and an exception outside the domain family then propagates to
the caller. -/
inductive RunOutcome where
  | normal (fb : Feedback)
  | uncaughtExc (desc : String) (fb : Feedback)

/-- The feedback document carried by either exit path. -/
def feedbackOf : RunOutcome → Feedback
  | .normal fb => fb
  | .uncaughtExc _ fb => fb

/-- Line 249, `args = [arg_values[arg_name] for arg_name in step.arg_names]`:
resolve each declared input from the registry; a missing name raises
`KeyError` (NOT a domain error: the imported `BaseException` shadows the
builtin, so `KeyError` is outside the caught family). -/
def resolveArgs (names : List String) (argv : Dict) : Except String (List PyVal)
  :=
  match names with
  | [] => Except.ok []
  | n :: rest =>
    match dictGet n argv with
    | Option.none => Except.error ("KeyError: " ++ n)
    | Option.some v => (resolveArgs rest argv).map (fun vs => v :: vs)

/-- Lines 251-253: `return_values if len(step.return_names) > 1 else
(return_values,)`.  With more than one return name the raw result must
be a sequence to be iterated by `zip` (a non-sequence raises
`TypeError`, outside the domain family); with at most one name the raw
result is wrapped whole in a one-tuple, never unpacked. -/
def unpackReturns (return_names : List String) (r : PyVal) :
    Except String (List PyVal) :=
  if return_names.length > 1 then
    match r with
    | .tuple vs => Except.ok vs
    | _ => Except.error "TypeError: cannot unpack non-sequence return value"
  else
    Except.ok [r]

/-- Lookup in `return_map` (lines 255-257), the dict built by
`for name, value in zip(step.return_names, return_values)`: a later
duplicate key overwrites an earlier one, so the LAST binding wins. -/
def rmLookup (n : String) : List (String × PyVal) → Option PyVal
  | [] => Option.none
  | (k, v) :: rest =>
    match rmLookup n rest with
    | Option.some v' => Option.some v'
    | Option.none => if k = n then Option.some v else Option.none

/-- Lines 259-260: `for output_name in step.output_names:
step.outputs[output_name] = return_map[output_name]`.  A name absent
from `return_map` raises `KeyError` (uncaught family), leaving the
writes made so far in place. -/
def bindOutputs (names : List String) (rmap : List (String × PyVal))
    (outs : Dict) : Except (String × Dict) Dict :=
  match names with
  | [] => Except.ok outs
  | n :: rest =>
    match rmLookup n rmap with
    | Option.none => Except.error ("KeyError: " ++ n, outs)
    | Option.some v => bindOutputs rest rmap (dictSet n v outs)

/-- Lines 262-263: `for return_name in step.public_returns:
arg_values[return_name] = return_map[return_name]`, overwriting any
same-named registry value; a missing name raises `KeyError`. -/
def bindPublic (names : List String) (rmap : List (String × PyVal))
    (argv : Dict) : Except (String × Dict) Dict :=
  match names with
  | [] => Except.ok argv
  | n :: rest =>
    match rmLookup n rmap with
    | Option.none => Except.error ("KeyError: " ++ n, argv)
    | Option.some v => bindPublic rest rmap (dictSet n v argv)

/-- The first frame of `traceback.format_tb(tb)` when a step's callable
raises: the frame of `process_projectfile` itself at the call site
(line 250), always present, so the recorded trace is never empty. -/
def callFrame : String :=
  "  File \"process_projectfile.py\", line 250, in process_projectfile\n    return_values = step.method(*args)\n"

/-- Outcome of executing one step (the body of lines 248-263 for one
`step`): on success, the step's recorded outputs and the updated
registry; on failure, whether the exception is in the caught domain
family, plus the state of the step's outputs dict and the registry at
the moment of the raise (partial writes included). -/
inductive StepOutcome where
  | success (outs : Dict) (argv : Dict)
  | domainFail (msg : String) (trace : List String) (outs : Dict) (argv : Dict)
  | otherFail (desc : String) (outs : Dict) (argv : Dict)

/-- One iteration of the `for step in steps` loop (lines 248-263):
resolve inputs, invoke the callable, wrap/unpack the result, build
`return_map`, copy `output_names` into the step's outputs and write
`public_returns` into the registry.  Exceptions leave the stage at
STARTED and abort with the state reached so far. -/
def stepExec (step : PStep) (argv : Dict) : StepOutcome :=
  match resolveArgs step.arg_names argv with
  | Except.error e => StepOutcome.otherFail e [] argv
  | Except.ok args =>
    match step.method args with
    | MethodResult.raiseDomain msg tr =>
        StepOutcome.domainFail msg (callFrame :: tr) [] argv
    | MethodResult.raiseOther e => StepOutcome.otherFail e [] argv
    | MethodResult.ok r =>
      match unpackReturns step.return_names r with
      | Except.error e => StepOutcome.otherFail e [] argv
      | Except.ok vals =>
        let rmap := step.return_names.zip vals
        match bindOutputs step.output_names rmap [] with
        | Except.error (e, partialOuts) =>
            StepOutcome.otherFail e partialOuts argv
        | Except.ok outs =>
          match bindPublic step.public_returns rmap argv with
          | Except.error (e, partialArgv) =>
              StepOutcome.otherFail e outs partialArgv
          | Except.ok argv2 => StepOutcome.success outs argv2

/-- Record of a step the run never entered: stage still NOT_STARTED,
outputs dict still empty. -/
def notReachedRecord (s : PStep) : StepRecord :=
  ⟨s.name, Stage.notStarted, []⟩

/-- The `for step in steps` loop of lines 247-263: runs steps in
declared order, halting at the first exception; yields the per-step
records (every declared step, reached or not) and how the loop exited. -/
def runLoop : List PStep → Dict → List StepRecord × LoopExit
  | [], _ => ([], LoopExit.completed)
  | s :: rest, argv =>
    match stepExec s argv with
    | StepOutcome.success outs argv2 =>
        let r := runLoop rest argv2
        (⟨s.name, Stage.succeeded, outs⟩ :: r.1, r.2)
    | StepOutcome.domainFail msg tr outs _ =>
        (⟨s.name, Stage.started, outs⟩ :: rest.map notReachedRecord,
          LoopExit.caughtDomain msg tr)
    | StepOutcome.otherFail e outs _ =>
        (⟨s.name, Stage.started, outs⟩ :: rest.map notReachedRecord,
          LoopExit.uncaught e)

/-- Runs a prefix of the pipeline assuming every step succeeds,
returning the registry afterwards; `none` if some step raised. -/
def runPrefix : List PStep → Dict → Option Dict
  | [], argv => Option.some argv
  | s :: rest, argv =>
    match stepExec s argv with
    | StepOutcome.success _ argv2 => runPrefix rest argv2
    | _ => Option.none

/-- The whole executor, lines 246-284: the try/except/finally around the
loop.  A caught domain error contributes `feedback["error"] = str(err)`
and `feedback["error_stack"] = traceback.format_tb(tb)`; the `finally`
block always assembles the `"steps"` list from every declared step; an
exception outside the domain family still reaches the `finally` block
and then propagates to the caller. -/
def processRun (steps : List PStep) (argv : Dict) : RunOutcome :=
  match runLoop steps argv with
  | (recs, LoopExit.completed) =>
      RunOutcome.normal ⟨Option.none, Option.none, recs⟩
  | (recs, LoopExit.caughtDomain msg tr) =>
      RunOutcome.normal ⟨Option.some msg, Option.some tr, recs⟩
  | (recs, LoopExit.uncaught e) =>
      RunOutcome.uncaughtExc e ⟨Option.none, Option.none, recs⟩

/-- The concrete pipeline declared in lines 219-244, parameterized by
the four heavy QGIS callables (out of scope, opaque collaborators). -/
def processProjectfileSteps
    (check_valid_project_file load_project_file check_layer_validity
      generate_thumbnail : List PyVal → MethodResult) : List PStep :=
  [ { name := "Project Validity Check"
    , arg_names := ["project_filename"]
    , method := check_valid_project_file }
  , { name := "Opening Check"
    , arg_names := ["project_filename"]
    , method := load_project_file
    , return_names := ["project"]
    , public_returns := ["project"] }
  , { name := "Layer Validity Check"
    , arg_names := ["project"]
    , method := check_layer_validity
    , return_names := ["layers_summary"]
    , output_names := ["layers_summary"] }
  , { name := "Generate Thumbnail Image"
    , arg_names := ["project", "thumbnail_filename"]
    , method := generate_thumbnail } ]

/-- The initial registry of lines 215-218. -/
def initialArgValues (project_filename thumbnail_filename : PyVal) : Dict :=
  [("project_filename", project_filename),
   ("thumbnail_filename", thumbnail_filename)]

/-- The successive values a step's stage field takes during one
invocation of the loop body for that step (modelled from the spec:
`logger_context` sets STARTED on entry and SUCCEEDED on normal exit,
and leaves STARTED on exceptional exit). -/
def stageSeq (step : PStep) (argv : Dict) : List Stage :=
  Stage.notStarted :: Stage.started ::
    (match stepExec step argv with
     | StepOutcome.success _ _ => [Stage.succeeded]
     | _ => [])

/-- Boolean subset test over name lists, as a constructor would run it. -/
def isSubsetNames (a b : List String) : Bool :=
  a.all (fun x => b.contains x)

/-- Modelled from the spec: construction of a `Step` descriptor (the
`Step` class lives in `qfieldcloud.qgis.utils`, which is not among the
sources) validates that `output_names` and `public_returns` are each
subsets of `return_names`, rejecting a violating descriptor when the
step is constructed, before the pipeline runs. -/
def mkStep (name : String) (arg_names : List String)
    (method : List PyVal → MethodResult)
    (return_names output_names public_returns : List String) :
    Except String PStep :=
  if isSubsetNames output_names return_names then
    if isSubsetNames public_returns return_names then
      Except.ok
        ⟨name, arg_names, method, return_names, output_names,
          public_returns⟩
    else Except.error "public_returns must be a subset of return_names"
  else Except.error "output_names must be a subset of return_names"

/-! ### The serialized feedback document

`json.dump(feedback, f, indent=2, sort_keys=True)` (lines 279-284)
modelled as a pure rendering function over a JSON value tree. -/

/-- JSON values as `json.dump` sees the feedback dict. -/
inductive PyJson where
  | null
  | bool (b : Bool)
  | int (n : Int)
  | str (s : String)
  | arr (xs : List PyJson)
  | obj (kvs : List (String × PyJson))

def jsonEscapeChar (c : Char) : String :=
  if c = '\\' then "\\\\" else if c = '"' then "\\\"" else String.singleton c

def jsonEscape (s : String) : String :=
  String.join (s.toList.map jsonEscapeChar)

def jsonQuote (s : String) : String := "\"" ++ jsonEscape s ++ "\""

def spacesOf (n : Nat) : String := String.join (List.replicate n " ")

mutual

/-- Renders one JSON value at container indentation `ind`, in the style
of `json.dump(..., indent=2)`: empty containers collapse, non-empty
ones put each item on its own line, two spaces deeper. -/
def dumpVal (ind : Nat) : PyJson → String
  | PyJson.null => "null"
  | PyJson.bool b => if b then "true" else "false"
  | PyJson.int n => toString n
  | PyJson.str s => jsonQuote s
  | PyJson.arr xs =>
    match xs with
    | [] => "[]"
    | _ => "[\n" ++ dumpArr (ind + 2) xs ++ "\n" ++ spacesOf ind ++ "]"
  | PyJson.obj kvs =>
    match kvs with
    | [] => "\x7b\x7d"
    | _ =>
        "\x7b\n" ++ dumpObj (ind + 2) kvs ++ "\n" ++ spacesOf ind ++ "\x7d"

def dumpArr (ind : Nat) : List PyJson → String
  | [] => ""
  | [x] => spacesOf ind ++ dumpVal ind x
  | x :: xs => spacesOf ind ++ dumpVal ind x ++ ",\n" ++ dumpArr ind xs

def dumpObj (ind : Nat) : List (String × PyJson) → String
  | [] => ""
  | [(k, v)] => spacesOf ind ++ jsonQuote k ++ ": " ++ dumpVal ind v
  | (k, v) :: kvs =>
      spacesOf ind ++ jsonQuote k ++ ": " ++ dumpVal ind v ++ ",\n" ++
        dumpObj ind kvs

end

mutual

/-- How `json.dump` serializes the `PyVal`s stored in step outputs
(tuples become JSON arrays). -/
def pyValJson : PyVal → PyJson
  | PyVal.none => PyJson.null
  | PyVal.bool b => PyJson.bool b
  | PyVal.int n => PyJson.int n
  | PyVal.str s => PyJson.str s
  | PyVal.tuple vs => PyJson.arr (pyValJsonList vs)

def pyValJsonList : List PyVal → List PyJson
  | [] => []
  | v :: vs => pyValJson v :: pyValJsonList vs

end

/-- Modelled from the spec: the serialized form of a stage name in the
feedback JSON. -/
def stageJson : Stage → PyJson
  | Stage.notStarted => PyJson.str "NOT_STARTED"
  | Stage.started => PyJson.str "STARTED"
  | Stage.succeeded => PyJson.str "SUCCEEDED"

/-- Insertion into a key-sorted association list (models
`sort_keys=True`). -/
def insertSortedKV (kv : String × PyJson) :
    List (String × PyJson) → List (String × PyJson)
  | [] => [kv]
  | kv' :: rest =>
      if kv.1 ≤ kv'.1 then kv :: kv' :: rest
      else kv' :: insertSortedKV kv rest

def sortByKey : List (String × PyJson) → List (String × PyJson)
  | [] => []
  | kv :: rest => insertSortedKV kv (sortByKey rest)

/-- One `{"name": ..., "outputs": ..., "stage": ...}` record; key order
is alphabetical as `sort_keys=True` emits it. -/
def recordJson (r : StepRecord) : PyJson :=
  PyJson.obj
    [("name", PyJson.str r.name),
     ("outputs",
        PyJson.obj
          (sortByKey (r.outputs.map (fun kv => (kv.1, pyValJson kv.2))))),
     ("stage", stageJson r.stage)]

/-- The whole feedback dict with its keys in alphabetical order:
`"error" < "error_stack" < "steps"`; absent optional keys are simply
not present. -/
def feedbackJson (fb : Feedback) : PyJson :=
  PyJson.obj
    ((match fb.error with
      | Option.some e => [("error", PyJson.str e)]
      | Option.none => []) ++
     (match fb.error_stack with
      | Option.some tb => [("error_stack", PyJson.arr (tb.map PyJson.str))]
      | Option.none => []) ++
     [("steps", PyJson.arr (fb.steps.map recordJson))])

/-- `json.dump(feedback, f, indent=2, sort_keys=True)` (line 281 and,
for the stdout path, line 284): the serialized feedback document. -/
def serializeFeedback (fb : Feedback) : String :=
  dumpVal 0 (feedbackJson fb)

/-- Pipeline scenario with two steps, the first publishing a value the
second consumes, both succeeding. -/
def demoStep1 : PStep :=
  { name := "Make", arg_names := [],
    method := fun _ => MethodResult.ok (PyVal.str "V"),
    return_names := ["project"], public_returns := ["project"] }

def demoStep2 : PStep :=
  { name := "Use", arg_names := ["project"],
    method := fun _ => MethodResult.ok PyVal.none }

/-- Step whose callable raises a domain error immediately. -/
def demoRaiser : PStep :=
  { name := "Raise", arg_names := [],
    method := fun _ =>
      MethodResult.raiseDomain "boom" ["  File \"utils.py\", line 9\n"] }

/-- Step whose callable raises outside the domain family. -/
def demoOtherRaiser : PStep :=
  { name := "Crash", arg_names := [],
    method := fun _ =>
      MethodResult.raiseOther "ZeroDivisionError: division by zero" }

/-- Step that neither reads nor publishes the name "project". -/
def demoNoop : PStep :=
  { name := "Noop", arg_names := [],
    method := fun _ => MethodResult.ok PyVal.none }

/-- Step declaring two return names whose callable returns three
values. -/
def mismatchStep : PStep :=
  { name := "Mismatch", arg_names := [],
    method := fun _ =>
      MethodResult.ok
        (PyVal.tuple [PyVal.int 1, PyVal.int 2, PyVal.int 3]),
    return_names := ["a", "b"] }

/-- Step declaring exactly one return name whose callable returns a
tuple (which must stay bound whole, not unpacked). -/
def demoSingle : PStep :=
  { name := "Single", arg_names := [],
    method := fun _ => MethodResult.ok (PyVal.tuple [PyVal.int 7]),
    return_names := ["project"] }

/-! ### Structural lemmas about the executor -/

theorem runLoop_names (steps : List PStep) (argv : Dict) :
    ((runLoop steps argv).1).map StepRecord.name = steps.map PStep.name := by
  induction steps generalizing argv with
  | nil => rfl
  | cons s rest ih =>
    unfold runLoop
    cases h : stepExec s argv with
    | success outs argv2 => simpa using ih argv2
    | domainFail msg tr outs a =>
        simp [List.map_map, Function.comp, notReachedRecord]
    | otherFail e outs a =>
        simp [List.map_map, Function.comp, notReachedRecord]

theorem runLoop_length (steps : List PStep) (argv : Dict) :
    ((runLoop steps argv).1).length = steps.length := by
  have h := congrArg List.length (runLoop_names steps argv)
  simpa using h

theorem runPrefix_exit (pre : List PStep) (argv d : Dict)
    (h : runPrefix pre argv = Option.some d) :
    (runLoop pre argv).2 = LoopExit.completed := by
  induction pre generalizing argv with
  | nil => rfl
  | cons s rest ih =>
    unfold runPrefix at h
    unfold runLoop
    cases hs : stepExec s argv with
    | success outs argv2 => rw [hs] at h; exact ih argv2 h
    | domainFail msg tr outs a => rw [hs] at h; injection h
    | otherFail e outs a => rw [hs] at h; injection h

theorem runPrefix_stages (pre : List PStep) (argv d : Dict)
    (h : runPrefix pre argv = Option.some d) :
    ∀ r ∈ (runLoop pre argv).1, r.stage = Stage.succeeded := by
  induction pre generalizing argv with
  | nil => intro r hr; simp [runLoop] at hr
  | cons s rest ih =>
    unfold runPrefix at h
    unfold runLoop
    cases hs : stepExec s argv with
    | success outs argv2 =>
        rw [hs] at h
        intro r hr
        rcases List.mem_cons.mp hr with hr | hr
        · subst hr; rfl
        · exact ih argv2 h r hr
    | domainFail msg tr outs a => rw [hs] at h; injection h
    | otherFail e outs a => rw [hs] at h; injection h

theorem runLoop_append (pre post : List PStep) (argv d : Dict)
    (h : runPrefix pre argv = Option.some d) :
    runLoop (pre ++ post) argv =
      ((runLoop pre argv).1 ++ (runLoop post d).1, (runLoop post d).2) := by
  induction pre generalizing argv with
  | nil =>
    unfold runPrefix at h
    injection h with h
    subst h
    rfl
  | cons s rest ih =>
    unfold runPrefix at h
    rw [List.cons_append]
    simp only [runLoop]
    cases hs : stepExec s argv with
    | success outs argv2 =>
        simp only [hs] at h
        simp [hs, ih argv2 h]
    | domainFail msg tr outs a => simp only [hs] at h; injection h
    | otherFail e outs a => simp only [hs] at h; injection h

theorem runPrefix_append (a b : List PStep) (argv : Dict) :
    runPrefix (a ++ b) argv =
      (runPrefix a argv).bind (fun d => runPrefix b d) := by
  induction a generalizing argv with
  | nil => rfl
  | cons s rest ih =>
    rw [List.cons_append]
    simp only [runPrefix]
    cases hs : stepExec s argv with
    | success outs argv2 => simp only [hs]; exact ih argv2
    | domainFail msg tr outs a => simp [hs]
    | otherFail e outs a => simp [hs]

/-- Characterization of a successful step execution. -/
theorem stepExec_success_iff (s : PStep) (argv outs argv2 : Dict) :
    stepExec s argv = StepOutcome.success outs argv2 ↔
      ∃ args r vals,
        resolveArgs s.arg_names argv = Except.ok args ∧
        s.method args = MethodResult.ok r ∧
        unpackReturns s.return_names r = Except.ok vals ∧
        bindOutputs s.output_names (s.return_names.zip vals) [] =
          Except.ok outs ∧
        bindPublic s.public_returns (s.return_names.zip vals) argv =
          Except.ok argv2 := by
  constructor
  · intro h
    unfold stepExec at h
    cases hargs : resolveArgs s.arg_names argv with
    | error e => simp only [hargs] at h; injection h
    | ok args =>
      simp only [hargs] at h
      cases hm : s.method args with
      | raiseDomain msg tl => simp only [hm] at h; injection h
      | raiseOther e => simp only [hm] at h; injection h
      | ok r =>
        simp only [hm] at h
        cases hu : unpackReturns s.return_names r with
        | error e => simp only [hu] at h; injection h
        | ok vals =>
          simp only [hu] at h
          cases hb : bindOutputs s.output_names (s.return_names.zip vals) []
            with
          | error p =>
              obtain ⟨e, po⟩ := p
              simp only [hb] at h; injection h
          | ok outs' =>
            simp only [hb] at h
            cases hp :
                bindPublic s.public_returns (s.return_names.zip vals) argv
              with
            | error p =>
                obtain ⟨e, pa⟩ := p
                simp only [hp] at h; injection h
            | ok argv2' =>
              simp only [hp] at h
              injection h with h1 h2
              subst h1; subst h2
              exact ⟨args, r, vals, rfl, hm, hu, hb, hp⟩
  · rintro ⟨args, r, vals, h1, h2, h3, h4, h5⟩
    unfold stepExec
    simp [h1, h2, h3, h4, h5]

/-- A caught domain failure of a step leaves the step's outputs empty
and the registry untouched, and its recorded traceback starts with the
executor's own call-site frame (so it is never empty). -/
theorem stepExec_domainFail_inv (s : PStep) (argv : Dict) (msg : String)
    (tr : List String) (outs argv' : Dict)
    (h : stepExec s argv = StepOutcome.domainFail msg tr outs argv') :
    outs = [] ∧ argv' = argv ∧ ∃ tl,
      tr = callFrame :: tl ∧
      (∃ args, resolveArgs s.arg_names argv = Except.ok args ∧
        s.method args = MethodResult.raiseDomain msg tl) := by
  unfold stepExec at h
  cases hargs : resolveArgs s.arg_names argv with
  | error e => simp only [hargs] at h; injection h
  | ok args =>
    simp only [hargs] at h
    cases hm : s.method args with
    | raiseDomain m tl =>
        simp only [hm] at h
        injection h with h1 h2 h3 h4
        subst h1
        exact ⟨h3.symm, h4.symm, tl, h2.symm, args, rfl, hm⟩
    | raiseOther e => simp only [hm] at h; injection h
    | ok r =>
      simp only [hm] at h
      cases hu : unpackReturns s.return_names r with
      | error e => simp only [hu] at h; injection h
      | ok vals =>
        simp only [hu] at h
        cases hb : bindOutputs s.output_names (s.return_names.zip vals) []
          with
        | error p =>
            obtain ⟨e, po⟩ := p
            simp only [hb] at h; injection h
        | ok outs' =>
          simp only [hb] at h
          cases hp :
              bindPublic s.public_returns (s.return_names.zip vals) argv
            with
          | error p =>
              obtain ⟨e, pa⟩ := p
              simp only [hp] at h; injection h
          | ok argv2' => simp only [hp] at h; injection h

/-- A step whose callable raises a domain error fails in the caught
family with no writes at all. -/
theorem stepExec_method_domain (s : PStep) (argv : Dict)
    (args : List PyVal) (msg : String) (tl : List String)
    (h1 : resolveArgs s.arg_names argv = Except.ok args)
    (h2 : s.method args = MethodResult.raiseDomain msg tl) :
    stepExec s argv = StepOutcome.domainFail msg (callFrame :: tl) [] argv
    := by
  unfold stepExec
  simp [h1, h2]

/-- A step whose callable raises outside the domain family fails in the
uncaught channel with no writes at all. -/
theorem stepExec_method_other (s : PStep) (argv : Dict)
    (args : List PyVal) (e : String)
    (h1 : resolveArgs s.arg_names argv = Except.ok args)
    (h2 : s.method args = MethodResult.raiseOther e) :
    stepExec s argv = StepOutcome.otherFail e [] argv := by
  unfold stepExec
  simp [h1, h2]

/-! ### Registry preservation lemmas -/

theorem dictGet_dictSet_ne (k k' : String) (v : PyVal) (d : Dict)
    (h : k' ≠ k) : dictGet k (dictSet k' v d) = dictGet k d := by
  induction d with
  | nil => simp [dictGet, dictSet, h]
  | cons kv rest ih =>
    obtain ⟨k0, v0⟩ := kv
    simp only [dictSet]
    by_cases h0 : k0 = k'
    · rw [if_pos h0]
      have hk0 : k0 ≠ k := fun hh => h (h0.symm.trans hh)
      simp [dictGet, hk0]
    · rw [if_neg h0]
      simp only [dictGet]
      by_cases h1 : k0 = k
      · simp [h1]
      · simp [h1, ih]

theorem bindPublic_pres (names : List String) (rmap : List (String × PyVal))
    (argv argv2 : Dict) (x : String) (hx : x ∉ names)
    (h : bindPublic names rmap argv = Except.ok argv2) :
    dictGet x argv2 = dictGet x argv := by
  induction names generalizing argv with
  | nil =>
    unfold bindPublic at h
    injection h with h
    subst h
    rfl
  | cons n rest ih =>
    unfold bindPublic at h
    cases hl : rmLookup n rmap with
    | none => rw [hl] at h; injection h
    | some v =>
      rw [hl] at h
      have hxn : n ≠ x := fun e => hx (e ▸ List.mem_cons_self n rest)
      have hrest : x ∉ rest := fun hm => hx (List.mem_cons_of_mem _ hm)
      rw [ih (dictSet n v argv) hrest h]
      exact dictGet_dictSet_ne x n v argv hxn

/-- A successful step only changes registry entries named among its
public returns. -/
theorem stepExec_success_pres (s : PStep) (argv outs argv2 : Dict)
    (x : String) (hx : x ∉ s.public_returns)
    (h : stepExec s argv = StepOutcome.success outs argv2) :
    dictGet x argv2 = dictGet x argv := by
  obtain ⟨args, r, vals, _, _, _, _, h5⟩ :=
    (stepExec_success_iff s argv outs argv2).mp h
  exact bindPublic_pres s.public_returns (s.return_names.zip vals)
    argv argv2 x hx h5

/-- A successfully executed step sequence none of whose steps publicly
returns `x` leaves the registry entry for `x` untouched. -/
theorem runPrefix_pres : ∀ (ss : List PStep) (argv d : Dict) (x : String),
    (∀ s ∈ ss, x ∉ s.public_returns) →
    runPrefix ss argv = Option.some d →
    dictGet x d = dictGet x argv
  | [], _, _, _, _, h => by
      unfold runPrefix at h
      injection h with h
      subst h
      rfl
  | s :: rest, argv, d, x, hx, h => by
      unfold runPrefix at h
      cases hs : stepExec s argv with
      | success outs argv2 =>
          rw [hs] at h
          have h2 := runPrefix_pres rest argv2 d x
            (fun t ht => hx t (List.mem_cons_of_mem _ ht)) h
          rw [h2]
          exact stepExec_success_pres s argv outs argv2 x
            (hx s (List.mem_cons_self s rest)) hs
      | domainFail msg tr outs a => rw [hs] at h; injection h
      | otherFail e outs a => rw [hs] at h; injection h

/-- Resolved positional arguments are exactly the registry values of the
declared input names, in declared order. -/
theorem resolveArgs_getElem : ∀ (names : List String) (argv : Dict)
    (args : List PyVal), resolveArgs names argv = Except.ok args →
    ∀ p : Nat, args[p]? = (names[p]?).bind (fun n => dictGet n argv)
  | [], argv, args, h, p => by
      unfold resolveArgs at h
      injection h with h
      subst h
      simp
  | n :: rest, argv, args, h, p => by
      unfold resolveArgs at h
      cases hg : dictGet n argv with
      | none => simp only [hg] at h; injection h
      | some v =>
        simp only [hg] at h
        cases hr : resolveArgs rest argv with
        | error e => simp only [hr, Except.map] at h; injection h
        | ok vs =>
          simp only [hr, Except.map] at h
          injection h with h
          subst h
          cases p with
          | zero => simp [hg]
          | succ p' => simpa using resolveArgs_getElem rest argv vs hr p'

theorem isSubsetNames_iff (a b : List String) :
    isSubsetNames a b = true ↔ a ⊆ b := by
  simp [isSubsetNames, List.all_eq_true, List.subset_def]

/-- Splitting a run at a position whose prefix succeeds. -/
theorem runLoop_split (steps : List PStep) (argv d : Dict) (k : Nat)
    (hpre : runPrefix (steps.take k) argv = Option.some d) :
    runLoop steps argv =
      ((runLoop (steps.take k) argv).1 ++ (runLoop (steps.drop k) d).1,
        (runLoop (steps.drop k) d).2) := by
  have h := runLoop_append (steps.take k) (steps.drop k) argv d hpre
  rwa [List.take_append_drop] at h

theorem runLoop_head_domainFail (s : PStep) (rest : List PStep)
    (d : Dict) (msg : String) (tr : List String) (outs a : Dict)
    (h : stepExec s d = StepOutcome.domainFail msg tr outs a) :
    runLoop (s :: rest) d =
      (⟨s.name, Stage.started, outs⟩ :: rest.map notReachedRecord,
        LoopExit.caughtDomain msg tr) := by
  simp only [runLoop, h]

theorem runLoop_head_otherFail (s : PStep) (rest : List PStep)
    (d : Dict) (e : String) (outs a : Dict)
    (h : stepExec s d = StepOutcome.otherFail e outs a) :
    runLoop (s :: rest) d =
      (⟨s.name, Stage.started, outs⟩ :: rest.map notReachedRecord,
        LoopExit.uncaught e) := by
  simp only [runLoop, h]

/-- Index shape of the records list after a failure: every position
strictly beyond the failing one holds a NOT_STARTED record. -/
theorem recs_unreached_aux (pre : List StepRecord) (rec0 : StepRecord)
    (steps : List PStep) (k i : Nat)
    (hPreLen : pre.length = k) (hki : k < i) (hiN : i < steps.length) :
    ((pre ++ rec0 :: (steps.drop (k + 1)).map notReachedRecord)[i]?).map
      StepRecord.stage = Option.some Stage.notStarted := by
  subst hPreLen
  rw [List.getElem?_append, if_neg (by omega)]
  have hq : i - pre.length = (i - pre.length - 1) + 1 := by omega
  rw [hq, List.getElem?_cons_succ, List.getElem?_map, List.getElem?_drop]
  have hidx : pre.length + 1 + (i - pre.length - 1) = i := by omega
  rw [hidx]
  rw [List.getElem?_eq_getElem hiN]
  simp [notReachedRecord]

/-! ### Claim theorems -/

/-- Claim C2: for every pipeline run in which no step fails, the final
feedback document contains exactly one record per declared step, every
record's stage is SUCCEEDED, and the document has no top-level error
key (nor an error_stack key). -/
theorem all_success_feedback (steps : List PStep) (argv d : Dict)
    (h : runPrefix steps argv = Option.some d) :
    ∃ fb, processRun steps argv = RunOutcome.normal fb ∧
      fb.error = Option.none ∧ fb.error_stack = Option.none ∧
      fb.steps.length = steps.length ∧
      fb.steps.map StepRecord.name = steps.map PStep.name ∧
      ∀ r ∈ fb.steps, r.stage = Stage.succeeded := by
  have hexit := runPrefix_exit steps argv d h
  have hstages := runPrefix_stages steps argv d h
  have hlen := runLoop_length steps argv
  have hnames := runLoop_names steps argv
  rcases hRL : runLoop steps argv with ⟨recs, ex⟩
  rw [hRL] at hexit hstages hlen hnames
  simp only at hexit hstages hlen hnames
  subst hexit
  refine ⟨⟨Option.none, Option.none, recs⟩, ?_, rfl, rfl, hlen, hnames,
    hstages⟩
  simp [processRun, hRL]

theorem all_success_feedback_witness :
    runPrefix [demoStep1, demoStep2] [] =
      Option.some [("project", PyVal.str "V")] ∧
    (∃ fb, processRun [demoStep1, demoStep2] [] = RunOutcome.normal fb ∧
      fb.error = Option.none ∧ fb.error_stack = Option.none ∧
      fb.steps.length = ([demoStep1, demoStep2] : List PStep).length ∧
      fb.steps.map StepRecord.name =
        [demoStep1, demoStep2].map PStep.name ∧
      ∀ r ∈ fb.steps, r.stage = Stage.succeeded) :=
  ⟨rfl, all_success_feedback [demoStep1, demoStep2] [] _ rfl⟩

/-- Claim C3: on every exit path — normal completion, caught domain
error, or uncaught internal fault — the run produces exactly one
feedback document (every outcome carries one), and that document
enumerates every declared step, in declaration order, reached or not.
-/
theorem feedback_on_every_exit_path (steps : List PStep) (argv : Dict) :
    ((∃ fb, processRun steps argv = RunOutcome.normal fb) ∨
      (∃ e fb, processRun steps argv = RunOutcome.uncaughtExc e fb)) ∧
    (feedbackOf (processRun steps argv)).steps.map StepRecord.name =
      steps.map PStep.name ∧
    (feedbackOf (processRun steps argv)).steps.length = steps.length := by
  refine ⟨?_, ?_⟩
  · cases hPR : processRun steps argv with
    | normal fb => exact Or.inl ⟨fb, rfl⟩
    | uncaughtExc e fb => exact Or.inr ⟨e, fb, rfl⟩
  · have hnames := runLoop_names steps argv
    have hlen := runLoop_length steps argv
    rcases hRL : runLoop steps argv with ⟨recs, ex⟩
    rw [hRL] at hnames hlen
    simp only at hnames hlen
    cases ex <;> simp [processRun, hRL, feedbackOf] <;>
      exact ⟨hnames, hlen⟩

/-- Claim C10: if a step's callable raises any exception — domain or
not — the step performs no writes at all: the recorded outputs mapping
stays empty (as before the invocation) and the registry is exactly the
registry passed in, because all return binding happens only after the
callable returns successfully. -/
theorem raising_callable_no_partial_writes (s : PStep) (argv : Dict)
    (args : List PyVal)
    (hargs : resolveArgs s.arg_names argv = Except.ok args) :
    (∀ msg tl, s.method args = MethodResult.raiseDomain msg tl →
      stepExec s argv =
        StepOutcome.domainFail msg (callFrame :: tl) [] argv) ∧
    (∀ e, s.method args = MethodResult.raiseOther e →
      stepExec s argv = StepOutcome.otherFail e [] argv) :=
  ⟨fun msg tl h2 => stepExec_method_domain s argv args msg tl hargs h2,
    fun e h2 => stepExec_method_other s argv args e hargs h2⟩

theorem raising_callable_no_partial_writes_witness :
    resolveArgs demoRaiser.arg_names [] = Except.ok [] ∧
    ((∀ msg tl, demoRaiser.method [] = MethodResult.raiseDomain msg tl →
      stepExec demoRaiser [] =
        StepOutcome.domainFail msg (callFrame :: tl) [] []) ∧
    (∀ e, demoRaiser.method [] = MethodResult.raiseOther e →
      stepExec demoRaiser [] = StepOutcome.otherFail e [] [])) :=
  ⟨rfl, raising_callable_no_partial_writes demoRaiser [] [] rfl⟩

/-- Claim C6: a step descriptor whose output-names or public-returns
list is not a subset of its return-names list is rejected when the step
is constructed, before any run; conversely every constructed step
satisfies both subset invariants. -/
theorem subset_invariants_checked_at_construction (name : String)
    (arg_names : List String) (method : List PyVal → MethodResult)
    (rn onames prnames : List String) :
    ((¬ (onames ⊆ rn ∧ prnames ⊆ rn)) →
      ∃ e, mkStep name arg_names method rn onames prnames = Except.error e) ∧
    (∀ s, mkStep name arg_names method rn onames prnames = Except.ok s →
      onames ⊆ rn ∧ prnames ⊆ rn) := by
  constructor
  · intro hbad
    unfold mkStep
    by_cases h1 : isSubsetNames onames rn = true
    · by_cases h2 : isSubsetNames prnames rn = true
      · exact absurd ⟨(isSubsetNames_iff onames rn).mp h1,
          (isSubsetNames_iff prnames rn).mp h2⟩ hbad
      · rw [if_pos h1, if_neg h2]
        exact ⟨_, rfl⟩
    · rw [if_neg h1]
      exact ⟨_, rfl⟩
  · intro s hok
    unfold mkStep at hok
    by_cases h1 : isSubsetNames onames rn = true
    · by_cases h2 : isSubsetNames prnames rn = true
      · exact ⟨(isSubsetNames_iff onames rn).mp h1,
          (isSubsetNames_iff prnames rn).mp h2⟩
      · rw [if_pos h1, if_neg h2] at hok
        injection hok
    · rw [if_neg h1] at hok
      injection hok

theorem subset_invariants_witness :
    (¬ ((["b"] : List String) ⊆ ["a"] ∧ ([] : List String) ⊆ ["a"])) ∧
    (∃ e, mkStep "s" [] (fun _ => MethodResult.ok PyVal.none)
      ["a"] ["b"] [] = Except.error e) :=
  have hbad : ¬ ((["b"] : List String) ⊆ ["a"] ∧
      ([] : List String) ⊆ ["a"]) := by
    intro hc
    have := hc.1 (List.mem_cons_self "b" [])
    simp at this
  ⟨hbad,
    (subset_invariants_checked_at_construction "s" []
      (fun _ => MethodResult.ok PyVal.none) ["a"] ["b"] []).1 hbad⟩

/-- Claim C8: running the identical pipeline twice on identical initial
arguments (with the same, deterministic callables) yields byte-identical
serialized feedback documents — serialization is the pure, key-sorted,
2-space-indented rendering `serializeFeedback`. -/
theorem serialized_feedback_deterministic (steps : List PStep)
    (argv : Dict) (run1 run2 : RunOutcome)
    (h1 : run1 = processRun steps argv)
    (h2 : run2 = processRun steps argv) :
    serializeFeedback (feedbackOf run1) =
      serializeFeedback (feedbackOf run2) := by
  subst h1
  subst h2
  rfl

theorem serialized_feedback_deterministic_witness :
    processRun [demoStep1, demoStep2] [] =
      processRun [demoStep1, demoStep2] [] ∧
    serializeFeedback (feedbackOf (processRun [demoStep1, demoStep2] [])) =
      serializeFeedback (feedbackOf (processRun [demoStep1, demoStep2] []))
    :=
  ⟨rfl, serialized_feedback_deterministic [demoStep1, demoStep2] [] _ _
    rfl rfl⟩

/-- Claim C1: for every run in which step k (1-indexed) raises a
domain error and no earlier step fails, the feedback marks steps
1..k-1 SUCCEEDED, step k STARTED (a stage that is not SUCCEEDED),
steps k+1..N NOT_STARTED, contains a non-empty top-level error string
and a non-empty trace sequence, and still lists all N declared steps.
-/
theorem domain_failure_feedback (steps : List PStep) (argv : Dict)
    (k : Nat) (s : PStep) (d : Dict) (msg : String) (tr : List String)
    (o a : Dict)
    (hk1 : 1 ≤ k) (hk2 : k ≤ steps.length)
    (hpre : runPrefix (steps.take (k - 1)) argv = Option.some d)
    (hs : steps[k - 1]? = Option.some s)
    (hfail : stepExec s d = StepOutcome.domainFail msg tr o a)
    (hmsg : msg ≠ "") :
    ∃ fb, processRun steps argv = RunOutcome.normal fb ∧
      (∀ p, 1 ≤ p → p < k →
        (fb.steps[p - 1]?).map StepRecord.stage =
          Option.some Stage.succeeded) ∧
      (fb.steps[k - 1]?).map StepRecord.stage = Option.some Stage.started ∧
      Stage.started ≠ Stage.succeeded ∧
      (∀ p, k < p → p ≤ steps.length →
        (fb.steps[p - 1]?).map StepRecord.stage =
          Option.some Stage.notStarted) ∧
      fb.error = Option.some msg ∧ msg ≠ "" ∧
      fb.error_stack = Option.some tr ∧ tr ≠ [] ∧
      fb.steps.length = steps.length ∧
      fb.steps.map StepRecord.name = steps.map PStep.name := by
  obtain ⟨hw, hget⟩ := List.getElem?_eq_some.mp hs
  have hdrop : steps.drop (k - 1) = s :: steps.drop (k - 1 + 1) := by
    rw [List.drop_eq_getElem_cons hw, hget]
  have hhead := runLoop_head_domainFail s (steps.drop (k - 1 + 1)) d msg tr
    o a hfail
  have hRL : runLoop steps argv =
      ((runLoop (steps.take (k - 1)) argv).1 ++
        (⟨s.name, Stage.started, o⟩ ::
          (steps.drop (k - 1 + 1)).map notReachedRecord),
        LoopExit.caughtDomain msg tr) := by
    have h := runLoop_split steps argv d (k - 1) hpre
    rw [hdrop, hhead] at h
    exact h
  have hPreLen : (runLoop (steps.take (k - 1)) argv).1.length = k - 1 := by
    rw [runLoop_length, List.length_take]
    exact Nat.min_eq_left (by omega)
  have hfb : processRun steps argv = RunOutcome.normal
      ⟨Option.some msg, Option.some tr,
        (runLoop (steps.take (k - 1)) argv).1 ++
          (⟨s.name, Stage.started, o⟩ ::
            (steps.drop (k - 1 + 1)).map notReachedRecord)⟩ := by
    simp [processRun, hRL]
  have hA : ∀ p, 1 ≤ p → p < k →
      ((((runLoop (steps.take (k - 1)) argv).1 ++
        (⟨s.name, Stage.started, o⟩ ::
          (steps.drop (k - 1 + 1)).map notReachedRecord)))[p - 1]?).map
        StepRecord.stage = Option.some Stage.succeeded := by
    intro p hp1 hpk
    rw [List.getElem?_append, if_pos (by rw [hPreLen]; omega)]
    have hlt : p - 1 < (runLoop (steps.take (k - 1)) argv).1.length := by
      rw [hPreLen]; omega
    rw [List.getElem?_eq_getElem hlt]
    have hst := runPrefix_stages (steps.take (k - 1)) argv d hpre _
      (List.getElem_mem hlt)
    simp [hst]
  have hB : ((((runLoop (steps.take (k - 1)) argv).1 ++
      (⟨s.name, Stage.started, o⟩ ::
        (steps.drop (k - 1 + 1)).map notReachedRecord)))[k - 1]?).map
      StepRecord.stage = Option.some Stage.started := by
    rw [List.getElem?_append, if_neg (by rw [hPreLen]; omega)]
    have h0 : k - 1 - (runLoop (steps.take (k - 1)) argv).1.length = 0 := by
      rw [hPreLen]; omega
    rw [h0]
    simp
  have hD : ∀ p, k < p → p ≤ steps.length →
      ((((runLoop (steps.take (k - 1)) argv).1 ++
        (⟨s.name, Stage.started, o⟩ ::
          (steps.drop (k - 1 + 1)).map notReachedRecord)))[p - 1]?).map
        StepRecord.stage = Option.some Stage.notStarted := by
    intro p hpk hpN
    rw [List.getElem?_append, if_neg (by rw [hPreLen]; omega)]
    have hq : p - 1 - (runLoop (steps.take (k - 1)) argv).1.length =
        (p - k - 1) + 1 := by rw [hPreLen]; omega
    rw [hq, List.getElem?_cons_succ, List.getElem?_map, List.getElem?_drop]
    have hidx : k - 1 + 1 + (p - k - 1) = p - 1 := by omega
    rw [hidx]
    have hplt : p - 1 < steps.length := by omega
    rw [List.getElem?_eq_getElem hplt]
    simp [notReachedRecord]
  obtain ⟨-, -, tl, htr, -⟩ := stepExec_domainFail_inv s d msg tr o a hfail
  have hH : tr ≠ [] := by simp [htr]
  have hI : ((runLoop (steps.take (k - 1)) argv).1 ++
      (⟨s.name, Stage.started, o⟩ ::
        (steps.drop (k - 1 + 1)).map notReachedRecord)).length =
      steps.length := by
    have h := runLoop_length steps argv
    rw [hRL] at h
    simpa using h
  have hJ : ((runLoop (steps.take (k - 1)) argv).1 ++
      (⟨s.name, Stage.started, o⟩ ::
        (steps.drop (k - 1 + 1)).map notReachedRecord)).map
      StepRecord.name = steps.map PStep.name := by
    have h := runLoop_names steps argv
    rw [hRL] at h
    simpa using h
  exact ⟨_, hfb, hA, hB, by decide, hD, rfl, hmsg, rfl, hH, hI, hJ⟩

/-- Concrete run of the declared pipeline in which the second step
(`Opening Check`) raises a domain error. -/
def demoFailMsg : String :=
  "Project file \"/x.qgs\" is invalid QGIS file:\nerror"

def demoFailTb : List String :=
  ["  File \"utils.py\", line 85, in load_project_file\n"]

def demoOkMethod : List PyVal → MethodResult :=
  fun _ => MethodResult.ok PyVal.none

def demoBadMethod : List PyVal → MethodResult :=
  fun _ => MethodResult.raiseDomain demoFailMsg demoFailTb

def demoFailSteps : List PStep :=
  processProjectfileSteps demoOkMethod demoBadMethod demoOkMethod
    demoOkMethod

def demoFailArgs : Dict :=
  initialArgValues (PyVal.str "/x.qgs") (PyVal.str "/tmp/thumbnail.png")

def demoFailStep2 : PStep :=
  { name := "Opening Check"
  , arg_names := ["project_filename"]
  , method := demoBadMethod
  , return_names := ["project"]
  , public_returns := ["project"] }

theorem domain_failure_feedback_witness :
    stepExec demoFailStep2 demoFailArgs =
      StepOutcome.domainFail demoFailMsg (callFrame :: demoFailTb) []
        demoFailArgs ∧
    (∃ fb, processRun demoFailSteps demoFailArgs = RunOutcome.normal fb ∧
      (∀ p, 1 ≤ p → p < 2 →
        (fb.steps[p - 1]?).map StepRecord.stage =
          Option.some Stage.succeeded) ∧
      (fb.steps[2 - 1]?).map StepRecord.stage = Option.some Stage.started ∧
      Stage.started ≠ Stage.succeeded ∧
      (∀ p, 2 < p → p ≤ demoFailSteps.length →
        (fb.steps[p - 1]?).map StepRecord.stage =
          Option.some Stage.notStarted) ∧
      fb.error = Option.some demoFailMsg ∧ demoFailMsg ≠ "" ∧
      fb.error_stack = Option.some (callFrame :: demoFailTb) ∧
      (callFrame :: demoFailTb) ≠ ([] : List String) ∧
      fb.steps.length = demoFailSteps.length ∧
      fb.steps.map StepRecord.name = demoFailSteps.map PStep.name) :=
  ⟨rfl, domain_failure_feedback demoFailSteps demoFailArgs 2 demoFailStep2
    demoFailArgs demoFailMsg (callFrame :: demoFailTb) [] demoFailArgs
    (by decide) (by decide) rfl rfl rfl (by decide)⟩

/-- Claim C5: the executor catches exactly the imported domain
`BaseException` family: a step raising a domain error is converted
into the feedback's error string plus trace in a normal outcome, while
a step raising anything else produces an outcome that propagates the
exception to the caller unchanged, the finalizer still having built
the feedback (with no error key and all declared steps listed). -/
theorem catches_exactly_domain_family (steps : List PStep)
    (argv d : Dict) (k : Nat) (s : PStep)
    (hpre : runPrefix (steps.take k) argv = Option.some d)
    (hs : steps[k]? = Option.some s) :
    (∀ msg tr o a, stepExec s d = StepOutcome.domainFail msg tr o a →
      ∃ fb, processRun steps argv = RunOutcome.normal fb ∧
        fb.error = Option.some msg ∧ fb.error_stack = Option.some tr) ∧
    (∀ e o a, stepExec s d = StepOutcome.otherFail e o a →
      ∃ fb, processRun steps argv = RunOutcome.uncaughtExc e fb ∧
        fb.error = Option.none ∧ fb.error_stack = Option.none ∧
        fb.steps.map StepRecord.name = steps.map PStep.name) := by
  obtain ⟨hw, hget⟩ := List.getElem?_eq_some.mp hs
  have hdrop : steps.drop k = s :: steps.drop (k + 1) := by
    rw [List.drop_eq_getElem_cons hw, hget]
  constructor
  · intro msg tr o a hfail
    have hhead := runLoop_head_domainFail s (steps.drop (k + 1)) d msg tr
      o a hfail
    have h := runLoop_split steps argv d k hpre
    rw [hdrop, hhead] at h
    exact ⟨⟨Option.some msg, Option.some tr,
      (runLoop (steps.take k) argv).1 ++
        (⟨s.name, Stage.started, o⟩ ::
          (steps.drop (k + 1)).map notReachedRecord)⟩,
      by simp [processRun, h], rfl, rfl⟩
  · intro e o a hfail
    have hhead := runLoop_head_otherFail s (steps.drop (k + 1)) d e o a
      hfail
    have h := runLoop_split steps argv d k hpre
    rw [hdrop, hhead] at h
    refine ⟨⟨Option.none, Option.none,
      (runLoop (steps.take k) argv).1 ++
        (⟨s.name, Stage.started, o⟩ ::
          (steps.drop (k + 1)).map notReachedRecord)⟩,
      by simp [processRun, h], rfl, rfl, ?_⟩
    have hn := runLoop_names steps argv
    rw [h] at hn
    simpa using hn

theorem catches_exactly_domain_family_witness :
    (∃ fb, processRun [demoRaiser] [] = RunOutcome.normal fb ∧
      fb.error = Option.some "boom" ∧
      fb.error_stack =
        Option.some (callFrame :: ["  File \"utils.py\", line 9\n"])) ∧
    (∃ fb, processRun [demoOtherRaiser] [] =
        RunOutcome.uncaughtExc "ZeroDivisionError: division by zero" fb ∧
      fb.error = Option.none ∧ fb.error_stack = Option.none ∧
      fb.steps.map StepRecord.name =
        ([demoOtherRaiser] : List PStep).map PStep.name) :=
  ⟨(catches_exactly_domain_family [demoRaiser] [] [] 0 demoRaiser rfl
      rfl).1 "boom" (callFrame :: ["  File \"utils.py\", line 9\n"]) [] []
      rfl,
   (catches_exactly_domain_family [demoOtherRaiser] [] [] 0
      demoOtherRaiser rfl rfl).2 "ZeroDivisionError: division by zero"
      [] [] rfl⟩

/-- Claim C9: a step's stage only ever moves forward along
NOT_STARTED -> STARTED -> SUCCEEDED: during one invocation the stage
history is NOT_STARTED, STARTED and then SUCCEEDED exactly on a normal
exit (an exceptional exit leaves it at STARTED), the history is a
chain of the forward order, and every step beyond a failed one keeps
stage NOT_STARTED in the final records. -/
theorem stage_machine_forward :
    (∀ (step : PStep) (argv : Dict),
      List.Chain' stageLe (stageSeq step argv) ∧
      (stageSeq step argv).head? = Option.some Stage.notStarted ∧
      ((∃ outs argv2,
          stepExec step argv = StepOutcome.success outs argv2) →
        stageSeq step argv =
          [Stage.notStarted, Stage.started, Stage.succeeded]) ∧
      ((∀ outs argv2,
          stepExec step argv ≠ StepOutcome.success outs argv2) →
        stageSeq step argv = [Stage.notStarted, Stage.started])) ∧
    (∀ (steps : List PStep) (argv d : Dict) (k : Nat) (s : PStep),
      runPrefix (steps.take k) argv = Option.some d →
      steps[k]? = Option.some s →
      (∀ outs argv2, stepExec s d ≠ StepOutcome.success outs argv2) →
      ∀ i, k < i → i < steps.length →
        (((runLoop steps argv).1)[i]?).map StepRecord.stage =
          Option.some Stage.notStarted) := by
  constructor
  · intro step argv
    cases hs : stepExec step argv with
    | success outs argv2 =>
        have hseq : stageSeq step argv =
            [Stage.notStarted, Stage.started, Stage.succeeded] := by
          simp [stageSeq, hs]
        refine ⟨by rw [hseq]; simp [List.chain'_cons, stageLe, Stage.rank], by rw [hseq]; rfl, fun _ => hseq,
          fun hno => absurd rfl (hno outs argv2)⟩
    | domainFail msg tr outs a =>
        have hseq : stageSeq step argv =
            [Stage.notStarted, Stage.started] := by
          simp [stageSeq, hs]
        refine ⟨by rw [hseq]; simp [List.chain'_cons, stageLe, Stage.rank], by rw [hseq]; rfl, ?_, fun _ => hseq⟩
        rintro ⟨o2, a2, hok⟩
        injection hok
    | otherFail e outs a =>
        have hseq : stageSeq step argv =
            [Stage.notStarted, Stage.started] := by
          simp [stageSeq, hs]
        refine ⟨by rw [hseq]; simp [List.chain'_cons, stageLe, Stage.rank], by rw [hseq]; rfl, ?_, fun _ => hseq⟩
        rintro ⟨o2, a2, hok⟩
        injection hok
  · intro steps argv d k s hpre hs hfail i hki hiN
    obtain ⟨hw, hget⟩ := List.getElem?_eq_some.mp hs
    have hdrop : steps.drop k = s :: steps.drop (k + 1) := by
      rw [List.drop_eq_getElem_cons hw, hget]
    have hsplit := runLoop_split steps argv d k hpre
    have hPreLen : (runLoop (steps.take k) argv).1.length = k := by
      rw [runLoop_length, List.length_take]
      exact Nat.min_eq_left (by omega)
    cases hsd : stepExec s d with
    | success o2 a2 => exact absurd hsd (hfail o2 a2)
    | domainFail msg tr o a =>
        have hhead := runLoop_head_domainFail s (steps.drop (k + 1)) d
          msg tr o a hsd
        rw [hdrop, hhead] at hsplit
        rw [hsplit]
        exact recs_unreached_aux _ _ steps k i hPreLen hki hiN
    | otherFail e o a =>
        have hhead := runLoop_head_otherFail s (steps.drop (k + 1)) d e
          o a hsd
        rw [hdrop, hhead] at hsplit
        rw [hsplit]
        exact recs_unreached_aux _ _ steps k i hPreLen hki hiN

theorem stage_machine_forward_witness :
    stageSeq demoFailStep2 demoFailArgs =
      [Stage.notStarted, Stage.started] ∧
    (((runLoop demoFailSteps demoFailArgs).1)[2]?).map StepRecord.stage =
      Option.some Stage.notStarted := by
  have hsd : stepExec demoFailStep2 demoFailArgs =
      StepOutcome.domainFail demoFailMsg (callFrame :: demoFailTb) []
        demoFailArgs := rfl
  have hno : ∀ outs argv2, stepExec demoFailStep2 demoFailArgs ≠
      StepOutcome.success outs argv2 := by
    intro outs argv2 h
    rw [hsd] at h
    injection h
  constructor
  · exact (stage_machine_forward.1 demoFailStep2 demoFailArgs).2.2.2 hno
  · exact stage_machine_forward.2 demoFailSteps demoFailArgs demoFailArgs
      1 demoFailStep2 rfl rfl hno 2 (by decide) (by decide)

/-- Claim C4: propagation law — if step i's public returns include
name x, leaving value V in the registry, then any later step j
declaring x among its inputs receives V, provided no intervening step
publicly returns x (applying the theorem at the most recent such
writer gives the last-write-wins reading), all steps before j
succeeding. -/
theorem public_return_propagation (steps : List PStep) (argv : Dict)
    (i j : Nat) (x : String) (V : PyVal) (si sj : PStep)
    (dmid dj : Dict)
    (hij : i < j)
    (hsi : steps[i]? = Option.some si)
    (hxi : x ∈ si.public_returns)
    (hpost : runPrefix (steps.take (i + 1)) argv = Option.some dmid)
    (hV : dictGet x dmid = Option.some V)
    (hnointer : ∀ m t, i < m → m < j → steps[m]? = Option.some t →
      x ∉ t.public_returns)
    (hprej : runPrefix (steps.take j) argv = Option.some dj)
    (hsj : steps[j]? = Option.some sj) :
    dictGet x dj = Option.some V ∧
    (∀ (args : List PyVal) (p : Nat),
      resolveArgs sj.arg_names dj = Except.ok args →
      sj.arg_names[p]? = Option.some x →
      args[p]? = Option.some V) := by
  have hmid : ∀ t ∈ (steps.take j).drop (i + 1), x ∉ t.public_returns :=
    by
    intro t ht
    obtain ⟨p, hpw, hpe⟩ := List.mem_iff_getElem.mp ht
    have hp2 : ((steps.take j).drop (i + 1))[p]? = Option.some t := by
      rw [List.getElem?_eq_getElem hpw, hpe]
    rw [List.getElem?_drop, List.getElem?_take] at hp2
    by_cases hlt : i + 1 + p < j
    · rw [if_pos hlt] at hp2
      exact hnointer (i + 1 + p) t (by omega) hlt hp2
    · rw [if_neg hlt] at hp2
      injection hp2
  have hsplit : runPrefix (steps.take j) argv =
      (runPrefix (steps.take (i + 1)) argv).bind
        (fun d0 => runPrefix ((steps.take j).drop (i + 1)) d0) := by
    have h := runPrefix_append ((steps.take j).take (i + 1))
      ((steps.take j).drop (i + 1)) argv
    rw [List.take_append_drop] at h
    rw [List.take_take] at h
    rw [Nat.min_eq_left (by omega)] at h
    exact h
  rw [hsplit, hpost, Option.some_bind] at hprej
  have hkeep := runPrefix_pres ((steps.take j).drop (i + 1)) dmid dj x
    hmid hprej
  have hfinal : dictGet x dj = Option.some V := by rw [hkeep, hV]
  refine ⟨hfinal, ?_⟩
  intro args p hres hp
  rw [resolveArgs_getElem sj.arg_names dj args hres p, hp]
  simpa using hfinal

theorem public_return_propagation_witness :
    dictGet "project" [("project", PyVal.str "V")] =
      Option.some (PyVal.str "V") ∧
    (∀ (args : List PyVal) (p : Nat),
      resolveArgs demoStep2.arg_names [("project", PyVal.str "V")] =
        Except.ok args →
      demoStep2.arg_names[p]? = Option.some "project" →
      args[p]? = Option.some (PyVal.str "V")) :=
  public_return_propagation [demoStep1, demoNoop, demoStep2] [] 0 2
    "project" (PyVal.str "V") demoStep1 demoStep2
    [("project", PyVal.str "V")] [("project", PyVal.str "V")]
    (by decide) rfl (by decide) rfl rfl
    (by
      intro m t h1 h2 ht
      have hm : m = 1 := by omega
      subst hm
      have hx : ([demoStep1, demoNoop, demoStep2] : List PStep)[1]? =
          Option.some demoNoop := rfl
      rw [hx] at ht
      injection ht with ht
      subst ht
      simp [demoNoop])
    rfl rfl

/-- Claim C7 counterexample: a step declaring two return names whose
callable returns three values is accepted by the constructor (which
cannot see the callable's run-time arity) and runs to normal success
with no error anywhere: the cardinality mismatch is silently tolerated
at run time by zip truncation, refuting the claim that a mismatch is a
construction-time contract violation rather than tolerated at run
time. -/
theorem arity_mismatch_not_rejected :
    mkStep "Mismatch" []
      (fun _ => MethodResult.ok
        (PyVal.tuple [PyVal.int 1, PyVal.int 2, PyVal.int 3]))
      ["a", "b"] [] [] = Except.ok mismatchStep ∧
    processRun [mismatchStep] [] =
      RunOutcome.normal
        ⟨Option.none, Option.none,
          [⟨"Mismatch", Stage.succeeded, []⟩]⟩ :=
  ⟨rfl, rfl⟩

/-- Claim C7 (amended): when a step declares exactly one return name
the callable's result is bound whole to that name (never unpacked, even
a tuple); when it declares more than one, the result must be a
sequence (a non-sequence raises an uncaught TypeError), and the values
are paired with the names positionally by zip, which silently
truncates on a cardinality mismatch at run time: the step still
succeeds whenever no unbound name is referenced by output-names or
public-returns. -/
theorem return_binding_semantics (s : PStep) (argv : Dict) (r : PyVal)
    (n : String) (vs : List PyVal) :
    (s.return_names = [n] →
      unpackReturns s.return_names r = Except.ok [r] ∧
      s.return_names.zip [r] = [(n, r)]) ∧
    (s.return_names.length > 1 →
      unpackReturns s.return_names (PyVal.tuple vs) = Except.ok vs ∧
      (s.return_names.zip vs).length =
        min s.return_names.length vs.length) ∧
    (s.return_names.length > 1 → (∀ ws, r ≠ PyVal.tuple ws) →
      ∃ e, unpackReturns s.return_names r = Except.error e) ∧
    (s.output_names = [] → s.public_returns = [] →
      ∀ args vals, resolveArgs s.arg_names argv = Except.ok args →
      s.method args = MethodResult.ok r →
      unpackReturns s.return_names r = Except.ok vals →
      stepExec s argv = StepOutcome.success [] argv) := by
  refine ⟨?_, ?_, ?_, ?_⟩
  · intro h1
    rw [h1]
    exact ⟨by simp [unpackReturns], rfl⟩
  · intro hlen
    constructor
    · unfold unpackReturns
      rw [if_pos hlen]
    · exact List.length_zip _ _
  · intro hlen hnt
    unfold unpackReturns
    rw [if_pos hlen]
    cases r with
    | tuple ws => exact absurd rfl (hnt ws)
    | none => exact ⟨_, rfl⟩
    | bool b => exact ⟨_, rfl⟩
    | int m => exact ⟨_, rfl⟩
    | str t => exact ⟨_, rfl⟩
  · intro ho hp args vals hres hm hu
    unfold stepExec
    simp only [hres, hm, hu, ho, hp, bindOutputs, bindPublic]

theorem return_binding_semantics_witness :
    (unpackReturns demoSingle.return_names (PyVal.tuple [PyVal.int 7]) =
      Except.ok [PyVal.tuple [PyVal.int 7]] ∧
      demoSingle.return_names.zip [PyVal.tuple [PyVal.int 7]] =
        [("project", PyVal.tuple [PyVal.int 7])]) ∧
    stepExec mismatchStep [] = StepOutcome.success [] [] :=
  ⟨(return_binding_semantics demoSingle [] (PyVal.tuple [PyVal.int 7])
      "project" []).1 rfl,
   (return_binding_semantics mismatchStep []
      (PyVal.tuple [PyVal.int 1, PyVal.int 2, PyVal.int 3]) "a"
      [PyVal.int 1, PyVal.int 2, PyVal.int 3]).2.2.2 rfl rfl []
      [PyVal.int 1, PyVal.int 2, PyVal.int 3] rfl rfl rfl⟩

end QFC
